import Mathlib

/-!
Verification of the arangoDAG edge-store core (`dag.go`).

The Go code keeps vertices and directed edges in two ArangoDB collections and
delegates graph queries to AQL. The shallow embedding below models the store
state as a `DB` (a list of vertex keys and a list of directed edges) and gives
each AQL query its documented denotation:

* `FOR d IN edges FILTER d._from == f AND d._to == t RETURN d` (used by
  `getEdgeId`) becomes list membership of the pair `(f, t)`;
* `FOR v IN OUTBOUND SHORTEST_PATH f TO t edges RETURN v` becomes
  `shortestPath`, a complete minimal-hop-first path search (the AQL operator
  returns a vertex sequence of minimal hop count, the single vertex itself
  when `f = t`, and nothing when `t` is unreachable);
* `FOR v IN 1..10000 INBOUND v edges OPTIONS {order, uniqueVertices}
  RETURN DISTINCT v` (used by `WalkAncestors`) becomes `walkAncestorsKeys`:
  an inbound traversal of depth 1..10000 (breadth-first with global vertex
  dedup, or depth-first enumerating every inbound path) whose result list is
  deduplicated by the `RETURN DISTINCT` clause.

Store operations may fail with I/O errors; `addEdge` therefore takes a fault
map `fail : StoreOp → Bool` saying which store call errors, and also records
the trace of store operations it issued, so that statements about operation
ordering (e.g. whether the reachability query runs) can be made.  A failing
`CreateDocument` is modelled as not inserting the document, matching the
driver contract that an errored create does not persist.
-/

/-- Store state: the vertex collection (keys) and the edge collection
(`_from`/`_to` pairs), in insertion order. -/
structure DB where
  vertices : List String
  edges : List (String × String)
  deriving DecidableEq, Repr

/-- Error taxonomy of the Go code: driver not-found on a vertex read, the
`errors.New` values of `AddEdge` ("duplicate edge", "self loop", "loop"),
and an opaque store I/O failure passed through verbatim. -/
inductive Err where
  | notFound (key : String)
  | duplicateEdge
  | selfLoop
  | cycle
  | storeFailure
  deriving DecidableEq, Repr

/-- The store calls `AddEdge` issues, in order of appearance in the code:
two vertex reads, the duplicate-edge query, the shortest-path (reachability)
query, and the edge document creation. -/
inductive StoreOp where
  | readVertex (key : String)
  | queryEdge (src dst : String)
  | queryPath (src dst : String)
  | createEdge (src dst : String)
  deriving DecidableEq, Repr

/-- Forward edge relation of the stored edge set. -/
def EdgeRel (edges : List (String × String)) (u v : String) : Prop :=
  (u, v) ∈ edges

/-- Reachability along stored edges (directed path of length ≥ 0). -/
def Reaches (edges : List (String × String)) (u v : String) : Prop :=
  Relation.ReflTransGen (EdgeRel edges) u v

/-- The edge set has no directed cycle of length ≥ 1: no edge `(u, v)` with a
directed path from `v` back to `u`. -/
def Acyclic (edges : List (String × String)) : Prop :=
  ∀ u v, (u, v) ∈ edges → ¬ Reaches edges v u

/-- Reversed vertex sequences of all edge walks of exactly `n` hops starting
at `src`: a member `q = [vₙ, …, v₁, src]` lists the walk's vertices from its
end back to `src`, with every consecutive pair an edge taken backwards. -/
def rpaths (edges : List (String × String)) (src : String) : Nat → List (List String)
  | 0 => [[src]]
  | n + 1 =>
    (rpaths edges src n).flatMap fun p =>
      match p with
      | [] => []
      | v :: _ => (edges.filter fun e => e.1 = v).map fun e => e.2 :: p

/-- First `n`-hop walk from `src` ending at `dst`, still reversed. -/
def findAtLen (edges : List (String × String)) (src dst : String) (n : Nat) :
    Option (List String) :=
  (rpaths edges src n).find? fun q => q.head? = some dst

/-- Minimal-hop-first search: try hop counts `n, n+1, …` while fuel lasts and
return the first walk found, in forward order. -/
def spGo (edges : List (String × String)) (src dst : String) : Nat → Nat → Option (List String)
  | 0, _ => none
  | fuel + 1, n =>
    match findAtLen edges src dst n with
    | some q => some q.reverse
    | none => spGo edges src dst fuel (n + 1)

/-- All vertices a walk from `src` can touch: `src` and every edge endpoint. -/
def supp (edges : List (String × String)) (src : String) : List String :=
  src :: edges.flatMap fun e => [e.1, e.2]

/-- Denotation of `FOR v IN OUTBOUND SHORTEST_PATH @from TO @to @@collection
RETURN v` (the query of `getShortestPath` in dag.go): the vertex sequence of a
minimal-hop path from `src` to `dst`, or `none` when `dst` is unreachable.
The fuel `(supp edges src).length` exceeds the hop count of every duplicate-free
walk, so the bounded search is complete. -/
def shortestPath (edges : List (String × String)) (src dst : String) : Option (List String) :=
  spGo edges src dst (supp edges src).length 0

/-- Result of one `AddEdge` call: the returned error (`none` on success), the
store state afterwards, and the trace of store operations issued. -/
structure AddEdgeResult where
  res : Option Err
  db : DB
  trace : List StoreOp
  deriving DecidableEq, Repr

/-- `AddEdge(src, dst)` of dag.go: read both vertices (driver not-found when
absent), query for a duplicate edge, run the shortest-path query from `dst`
to `src` ("loop" when a path of ≥ 2 vertices exists, "self loop" when the
path is the single vertex), and only then create the edge document. `fail`
injects a store I/O failure at the given operation. -/
def addEdge (db : DB) (fail : StoreOp → Bool) (src dst : String) : AddEdgeResult :=
  let t1 := [StoreOp.readVertex src]
  if fail (.readVertex src) then ⟨some .storeFailure, db, t1⟩
  else if src ∉ db.vertices then ⟨some (.notFound src), db, t1⟩
  else
    let t2 := t1 ++ [StoreOp.readVertex dst]
    if fail (.readVertex dst) then ⟨some .storeFailure, db, t2⟩
    else if dst ∉ db.vertices then ⟨some (.notFound dst), db, t2⟩
    else
      let t3 := t2 ++ [StoreOp.queryEdge src dst]
      if fail (.queryEdge src dst) then ⟨some .storeFailure, db, t3⟩
      else if (src, dst) ∈ db.edges then ⟨some .duplicateEdge, db, t3⟩
      else
        let t4 := t3 ++ [StoreOp.queryPath dst src]
        if fail (.queryPath dst src) then ⟨some .storeFailure, db, t4⟩
        else
          match shortestPath db.edges dst src with
          | some p => if p.length = 1 then ⟨some .selfLoop, db, t4⟩ else ⟨some .cycle, db, t4⟩
          | none =>
            let t5 := t4 ++ [StoreOp.createEdge src dst]
            if fail (.createEdge src dst) then ⟨some .storeFailure, db, t5⟩
            else ⟨none, { db with edges := db.edges ++ [(src, dst)] }, t5⟩

/-- The fault-free store: no injected I/O failures. -/
def noFail : StoreOp → Bool := fun _ => false

/-- A sequence of `AddEdge` calls against the fault-free store; a call that
returns an error leaves the store unchanged and the sequence continues. -/
def runAddEdges (db : DB) (calls : List (String × String)) : DB :=
  calls.foldl (fun s c => (addEdge s noFail c.1 c.2).db) db

/-- `GetShortestPath(src, dst)` of dag.go: read both vertices, then run the
shortest-path query; `ok none` is the "no path" result (Go `nil, nil`). -/
def getShortestPath (db : DB) (src dst : String) : Except Err (Option (List String)) :=
  if src ∉ db.vertices then .error (.notFound src)
  else if dst ∉ db.vertices then .error (.notFound dst)
  else .ok (shortestPath db.edges src dst)

/-- Inbound neighbours of `v`: sources of stored edges targeting `v`, in
store order (the traversal's adjacency query). -/
def parents (edges : List (String × String)) (v : String) : List String :=
  (edges.filter fun e => e.2 = v).map fun e => e.1

/-- Depth-first inbound traversal with `uniqueVertices: none`: every inbound
walk of 1 up to `fuel` hops is enumerated, emitting the vertex reached by
each hop in depth-first order (a vertex reachable along several inbound
walks is emitted once per walk). -/
def dfsVisits (edges : List (String × String)) : Nat → String → List String
  | 0, _ => []
  | fuel + 1, v => (parents edges v).flatMap fun p => p :: dfsVisits edges fuel p

/-- Breadth-first inbound traversal with `uniqueVertices: global`: expand the
frontier layer by layer up to `fuel` hops, emitting each vertex at its first
discovery only. -/
def bfsVisits (edges : List (String × String)) : Nat → List String → List String → List String
  | 0, _, _ => []
  | fuel + 1, frontier, visited =>
    let discovered :=
      (frontier.flatMap (parents edges)).foldl
        (fun acc p => if visited.contains p || acc.contains p then acc else acc ++ [p]) []
    if discovered.isEmpty then []
    else discovered ++ bfsVisits edges fuel discovered (visited ++ discovered)

/-- Denotation of the `WalkAncestors` query `FOR v IN 1..10000 INBOUND @from
@@collection OPTIONS {order, uniqueVertices} RETURN DISTINCT v`: the raw
traversal (depth-first without vertex dedup, or breadth-first with global
dedup), capped at depth 10000, with the result deduplicated by the
`RETURN DISTINCT` clause. -/
def walkAncestorsKeys (edges : List (String × String)) (key : String) (dfs : Bool) :
    List String :=
  (if dfs then dfsVisits edges 10000 key else bfsVisits edges 10000 [key] [key]).dedup

/-- `WalkAncestors(key, fn, dfs)` of dag.go with a visit function that never
errors: read the start vertex (driver not-found when absent), run the
traversal query, and apply the visit function to each returned key in order;
the returned list is the sequence of keys the visit function is applied to. -/
def walkAncestors (db : DB) (key : String) (dfs : Bool) : Except Err (List String) :=
  if key ∈ db.vertices then .ok (walkAncestorsKeys db.edges key dfs) else .error (.notFound key)

/-- Producer loop of `GetRootsWalker` once the query has started, fed with the
cursor's per-item read outcomes: a failed read sends the error on the error
channel and continues with the next item; a successful read sends the key on
the roots channel. Returns the sequences sent on the two channels (the
cancellation signal is never raised here). -/
def walkerLoop : List (Except Err String) → List String × List Err
  | [] => ([], [])
  | .error e :: rest => ((walkerLoop rest).1, e :: (walkerLoop rest).2)
  | .ok key :: rest => (key :: (walkerLoop rest).1, (walkerLoop rest).2)

/-- `GetRootsWalker` of dag.go as a function of the underlying query outcome:
a failure to start the query sends that error and closes both channels with
no keys produced; otherwise the producer loop runs over the cursor items.
The pair collects everything sent on the roots and error channels before both
are closed. -/
def getRootsWalker : Except Err (List (Except Err String)) → List String × List Err
  | .error e => ([], [e])
  | .ok items => walkerLoop items

/-! ### Walks and reachability -/

/-- A reversed walk from `src` (its last element) to `dst` (its head), every
consecutive pair being a stored edge taken backwards. -/
def RWalk (edges : List (String × String)) (src dst : String) (q : List String) : Prop :=
  q.getLast? = some src ∧ q.head? = some dst ∧ q.Chain' (fun a b => (b, a) ∈ edges)

theorem rpaths_mem_iff {edges : List (String × String)} {src : String} :
    ∀ {n : Nat} {q : List String},
      q ∈ rpaths edges src n ↔
        q.length = n + 1 ∧ q.getLast? = some src ∧ q.Chain' (fun a b => (b, a) ∈ edges) := by
  intro n
  induction n with
  | zero =>
    intro q
    constructor
    · intro h
      simp only [rpaths, List.mem_singleton] at h
      subst h
      simp [List.chain'_singleton]
    · rintro ⟨hlen, hlast, -⟩
      obtain ⟨a, rfl⟩ := List.length_eq_one.mp hlen
      simp only [List.getLast?_singleton, Option.some.injEq] at hlast
      subst hlast
      simp [rpaths]
  | succ n ih =>
    intro q
    constructor
    · intro h
      simp only [rpaths, List.mem_flatMap] at h
      obtain ⟨p, hp, hq⟩ := h
      obtain ⟨hplen, hplast, hpch⟩ := ih.mp hp
      cases p with
      | nil => exact absurd hq (List.not_mem_nil q)
      | cons v p' =>
        simp only [List.mem_map, List.mem_filter, decide_eq_true_eq] at hq
        obtain ⟨e, ⟨heE, hev⟩, rfl⟩ := hq
        refine ⟨by simpa using hplen, ?_, ?_⟩
        · rw [List.getLast?_cons_cons]
          exact hplast
        · rw [List.chain'_cons]
          refine ⟨?_, hpch⟩
          have : (v, e.2) = e := by
            rw [← hev]
          rw [this]
          exact heE
    · rintro ⟨hlen, hlast, hch⟩
      match q, hlen with
      | w :: v :: t, hlen =>
        simp only [rpaths, List.mem_flatMap]
        rw [List.chain'_cons] at hch
        obtain ⟨hR, hch'⟩ := hch
        rw [List.getLast?_cons_cons] at hlast
        refine ⟨v :: t, ih.mpr ⟨by simpa using hlen, hlast, hch'⟩, ?_⟩
        simp only [List.mem_map, List.mem_filter, decide_eq_true_eq]
        exact ⟨(v, w), ⟨hR, rfl⟩, rfl⟩

theorem reaches_iff_rwalk {edges : List (String × String)} {u v : String} :
    Reaches edges u v ↔ ∃ q, RWalk edges u v q := by
  constructor
  · intro h
    induction h with
    | refl => exact ⟨[u], by simp [RWalk, List.chain'_singleton]⟩
    | @tail b c _ h₂ ih =>
      obtain ⟨q, hlast, hhead, hch⟩ := ih
      cases q with
      | nil => simp at hhead
      | cons b' q' =>
        simp only [List.head?_cons, Option.some.injEq] at hhead
        rw [← hhead] at h₂
        refine ⟨c :: b' :: q', ?_, rfl, ?_⟩
        · rw [List.getLast?_cons_cons]
          exact hlast
        · rw [List.chain'_cons]
          exact ⟨h₂, hch⟩
  · rintro ⟨q, hq⟩
    obtain ⟨hlast, hhead, hch⟩ := hq
    induction q generalizing v with
    | nil => simp at hhead
    | cons w t ih =>
      simp only [List.head?_cons, Option.some.injEq] at hhead
      subst hhead
      match t, hlast, hch with
      | [], hlast, _ =>
        simp only [List.getLast?_singleton, Option.some.injEq] at hlast
        subst hlast
        exact .refl
      | v' :: t', hlast, hch =>
        rw [List.getLast?_cons_cons] at hlast
        rw [List.chain'_cons] at hch
        exact (ih hlast rfl hch.2).tail hch.1

theorem rwalk_subset_supp {edges : List (String × String)} {src : String} :
    ∀ {q : List String}, q.getLast? = some src →
      q.Chain' (fun a b => (b, a) ∈ edges) → ∀ x ∈ q, x ∈ supp edges src := by
  intro q
  induction q with
  | nil => simp
  | cons w t ih =>
    intro hlast hch x hx
    match t, hlast, hch with
    | [], hlast, _ =>
      simp only [List.getLast?_singleton, Option.some.injEq] at hlast
      subst hlast
      simp only [List.mem_singleton] at hx
      subst hx
      exact List.mem_cons_self _ _
    | v' :: t', hlast, hch =>
      rw [List.getLast?_cons_cons] at hlast
      rw [List.chain'_cons] at hch
      rcases List.mem_cons.mp hx with rfl | hx'
      · refine List.mem_cons_of_mem _ (List.mem_flatMap.mpr ⟨(v', x), hch.1, ?_⟩)
        simp
      · exact ih hlast hch.2 x hx'

theorem not_nodup_split {α : Type} {l : List α} (h : ¬ l.Nodup) :
    ∃ (a : α) (l₁ l₂ l₃ : List α), l = l₁ ++ a :: (l₂ ++ a :: l₃) := by
  induction l with
  | nil => exact absurd List.nodup_nil h
  | cons x xs ih =>
    by_cases hx : x ∈ xs
    · obtain ⟨s, t, rfl⟩ := List.append_of_mem hx
      exact ⟨x, [], s, t, rfl⟩
    · have hxs : ¬ xs.Nodup := fun hn => h (List.nodup_cons.mpr ⟨hx, hn⟩)
      obtain ⟨a, l₁, l₂, l₃, rfl⟩ := ih hxs
      exact ⟨a, x :: l₁, l₂, l₃, rfl⟩

theorem chain'_splice {α : Type} {R : α → α → Prop} {a : α} {l₁ l₂ l₃ : List α}
    (h : List.Chain' R (l₁ ++ a :: (l₂ ++ a :: l₃))) : List.Chain' R (l₁ ++ a :: l₃) := by
  rw [List.chain'_append] at h
  obtain ⟨h₁, h₂, hlink⟩ := h
  have h₂' : List.Chain' R ((a :: l₂) ++ a :: l₃) := by simpa using h₂
  rw [List.chain'_append] at h₂'
  rw [List.chain'_append]
  exact ⟨h₁, h₂'.2.1, fun x hx y hy => hlink x hx y (by simpa using hy)⟩

theorem rwalk_shorten {edges : List (String × String)} {src dst : String} :
    ∀ (N : Nat) (q : List String), q.length ≤ N → RWalk edges src dst q →
      ∃ q', RWalk edges src dst q' ∧ q'.Nodup := by
  intro N
  induction N with
  | zero =>
    intro q hlen hq
    cases q with
    | nil => simp [RWalk] at hq
    | cons w t => simp at hlen
  | succ N ih =>
    intro q hlen hq
    by_cases hnd : q.Nodup
    · exact ⟨q, hq, hnd⟩
    · obtain ⟨a, l₁, l₂, l₃, rfl⟩ := not_nodup_split hnd
      obtain ⟨hlast, hhead, hch⟩ := hq
      refine ih (l₁ ++ a :: l₃) ?_ ⟨?_, ?_, chain'_splice hch⟩
      · have := hlen
        simp only [List.length_append, List.length_cons] at this ⊢
        omega
      · have e1 : l₁ ++ a :: (l₂ ++ a :: l₃) = (l₁ ++ a :: l₂) ++ (a :: l₃) := by simp
        rw [e1, List.getLast?_append_of_ne_nil _ (List.cons_ne_nil a l₃)] at hlast
        rw [List.getLast?_append_of_ne_nil _ (List.cons_ne_nil a l₃)]
        exact hlast
      · cases l₁ with
        | nil => simpa using hhead
        | cons x xs => simpa using hhead

theorem nodup_length_le {α : Type} [DecidableEq α] {q s : List α} (hnd : q.Nodup)
    (hsub : ∀ x ∈ q, x ∈ s) : q.length ≤ s.length := by
  have h1 : q.toFinset.card = q.length := List.toFinset_card_of_nodup hnd
  have h2 : q.toFinset ⊆ s.toFinset := fun x hx =>
    List.mem_toFinset.mpr (hsub x (List.mem_toFinset.mp hx))
  have h3 := Finset.card_le_card h2
  have h4 : s.toFinset.card ≤ s.length := s.toFinset_card_le
  omega

theorem findAtLen_eq_none_iff {edges : List (String × String)} {src dst : String} {n : Nat} :
    findAtLen edges src dst n = none ↔ ∀ q ∈ rpaths edges src n, q.head? ≠ some dst := by
  simp [findAtLen, List.find?_eq_none]

theorem findAtLen_eq_some {edges : List (String × String)} {src dst : String} {n : Nat}
    {q : List String} (h : findAtLen edges src dst n = some q) :
    q ∈ rpaths edges src n ∧ q.head? = some dst := by
  refine ⟨List.mem_of_find?_eq_some h, ?_⟩
  have := List.find?_some h
  simpa using this

theorem spGo_eq_none {edges : List (String × String)} {src dst : String} :
    ∀ (fuel n : Nat), spGo edges src dst fuel n = none →
      ∀ m, n ≤ m → m < n + fuel → findAtLen edges src dst m = none := by
  intro fuel
  induction fuel with
  | zero => intro n _ m _ hm; omega
  | succ fuel ih =>
    intro n h m hnm hm
    rw [spGo] at h
    cases hf : findAtLen edges src dst n with
    | some q => rw [hf] at h; exact absurd h (by simp)
    | none =>
      rw [hf] at h
      rcases Nat.eq_or_lt_of_le hnm with rfl | hlt
      · exact hf
      · exact ih (n + 1) h m hlt (by omega)

theorem spGo_eq_some {edges : List (String × String)} {src dst : String} :
    ∀ (fuel n : Nat) (p : List String), spGo edges src dst fuel n = some p →
      ∃ m, n ≤ m ∧ m < n + fuel ∧ findAtLen edges src dst m = some p.reverse ∧
        ∀ j, n ≤ j → j < m → findAtLen edges src dst j = none := by
  intro fuel
  induction fuel with
  | zero => intro n p h; rw [spGo] at h; exact absurd h (by simp)
  | succ fuel ih =>
    intro n p h
    rw [spGo] at h
    cases hf : findAtLen edges src dst n with
    | some q =>
      rw [hf] at h
      simp only [Option.some.injEq] at h
      subst h
      exact ⟨n, le_refl n, by omega, by simpa using hf, fun j h1 h2 => by omega⟩
    | none =>
      rw [hf] at h
      obtain ⟨m, hm1, hm2, hm3, hm4⟩ := ih (n + 1) p h
      refine ⟨m, by omega, by omega, hm3, fun j hj1 hj2 => ?_⟩
      rcases Nat.eq_or_lt_of_le hj1 with rfl | hlt
      · exact hf
      · exact hm4 j hlt hj2

theorem shortestPath_eq_none_iff {edges : List (String × String)} {src dst : String} :
    shortestPath edges src dst = none ↔ ¬ Reaches edges src dst := by
  constructor
  · intro h hr
    obtain ⟨q, hq⟩ := reaches_iff_rwalk.mp hr
    obtain ⟨q', hq', hnd⟩ := rwalk_shorten q.length q (le_refl _) hq
    obtain ⟨hlast, hhead, hch⟩ := hq'
    have hsub : ∀ x ∈ q', x ∈ supp edges src := rwalk_subset_supp hlast hch
    have hlen : q'.length ≤ (supp edges src).length := nodup_length_le hnd hsub
    have hne : q' ≠ [] := by intro he; rw [he] at hhead; simp at hhead
    have hpos : 1 ≤ q'.length := List.length_pos.mpr hne
    have hmem : q' ∈ rpaths edges src (q'.length - 1) :=
      rpaths_mem_iff.mpr ⟨by omega, hlast, hch⟩
    have hnone : findAtLen edges src dst (q'.length - 1) = none :=
      spGo_eq_none _ _ h (q'.length - 1) (by omega) (by omega)
    exact absurd hhead (findAtLen_eq_none_iff.mp hnone q' hmem)
  · intro hr
    cases hsp : shortestPath edges src dst with
    | none => rfl
    | some p =>
      exfalso
      obtain ⟨m, -, -, hm3, -⟩ := spGo_eq_some _ _ p hsp
      obtain ⟨hmem, hhead⟩ := findAtLen_eq_some hm3
      obtain ⟨-, hlast, hch⟩ := rpaths_mem_iff.mp hmem
      exact hr (reaches_iff_rwalk.mpr ⟨p.reverse, hlast, hhead, hch⟩)

theorem shortestPath_spec {edges : List (String × String)} {src dst : String} {p : List String}
    (h : shortestPath edges src dst = some p) :
    p.head? = some src ∧ p.getLast? = some dst ∧
      p.Chain' (fun a b => (a, b) ∈ edges) ∧
      ∀ q : List String, q.head? = some src → q.getLast? = some dst →
        q.Chain' (fun a b => (a, b) ∈ edges) → p.length ≤ q.length := by
  obtain ⟨m, -, -, hm3, hmin⟩ := spGo_eq_some _ _ p h
  obtain ⟨hmem, hhead⟩ := findAtLen_eq_some hm3
  obtain ⟨hlen, hlast, hch⟩ := rpaths_mem_iff.mp hmem
  have hp1 : p.head? = some src := by
    rw [← List.reverse_reverse p, List.head?_reverse]
    exact hlast
  have hp2 : p.getLast? = some dst := by
    rw [← List.reverse_reverse p, List.getLast?_reverse]
    exact hhead
  have hp3 : p.Chain' (fun a b => (a, b) ∈ edges) := by
    rw [← List.reverse_reverse p]
    rw [List.chain'_reverse]
    exact hch
  refine ⟨hp1, hp2, hp3, fun q hq1 hq2 hq3 => ?_⟩
  by_contra hqlt
  push_neg at hqlt
  have hqne : q ≠ [] := by intro he; rw [he] at hq1; simp at hq1
  have hqpos : 1 ≤ q.length := List.length_pos.mpr hqne
  have hqr : q.reverse ∈ rpaths edges src (q.length - 1) := by
    refine rpaths_mem_iff.mpr ⟨by simp; omega, ?_, ?_⟩
    · rw [List.getLast?_reverse]; exact hq1
    · rw [List.chain'_reverse]; exact hq3
  have hplen : p.length = m + 1 := by simpa using hlen
  have hj : findAtLen edges src dst (q.length - 1) = none :=
    hmin (q.length - 1) (by omega) (by omega)
  have : q.reverse.head? = some dst := by rw [List.head?_reverse]; exact hq2
  exact absurd this (findAtLen_eq_none_iff.mp hj q.reverse hqr)

theorem shortestPath_self {edges : List (String × String)} {x : String} :
    shortestPath edges x x = some [x] := by
  have h0 : findAtLen edges x x 0 = some [x] := by
    simp [findAtLen, rpaths, List.find?]
  rw [shortestPath]
  have : (supp edges x).length = (edges.flatMap fun e => [e.1, e.2]).length + 1 := by
    simp [supp]
  rw [this, spGo, h0]
  simp

/-! ### Acyclicity under edge insertion -/

theorem edgeRel_snoc {E : List (String × String)} {a b x y : String}
    (h : EdgeRel (E ++ [(a, b)]) x y) : (x, y) ∈ E ∨ (x = a ∧ y = b) := by
  rcases List.mem_append.mp h with h' | h'
  · exact Or.inl h'
  · right
    simpa [Prod.ext_iff] using h'

theorem reaches_of_sub {E : List (String × String)} {x y : String}
    (h : Reaches E x y) : Reaches (E ++ [(a, b)]) x y := by
  induction h with
  | refl => exact .refl
  | tail _ h₂ ih => exact ih.tail (List.mem_append.mpr (Or.inl h₂))

theorem reaches_snoc_decompose {E : List (String × String)} {a b x y : String}
    (hnab : ¬ Reaches E b a) (h : Reaches (E ++ [(a, b)]) x y) :
    Reaches E x y ∨ (Reaches E x a ∧ Reaches E b y) := by
  induction h with
  | refl => exact Or.inl .refl
  | @tail c d _ h₂ ih =>
    rcases edgeRel_snoc h₂ with hcd | ⟨rfl, rfl⟩
    · rcases ih with hp | ⟨hxa, hbc⟩
      · exact Or.inl (hp.tail hcd)
      · exact Or.inr ⟨hxa, hbc.tail hcd⟩
    · rcases ih with hp | ⟨hxa, hbc⟩
      · exact Or.inr ⟨hp, .refl⟩
      · exact absurd hbc hnab

theorem acyclic_snoc {E : List (String × String)} {a b : String}
    (hA : Acyclic E) (hnab : ¬ Reaches E b a) : Acyclic (E ++ [(a, b)]) := by
  intro u v huv hvu
  rcases edgeRel_snoc huv with huv' | ⟨rfl, rfl⟩
  · rcases reaches_snoc_decompose hnab hvu with hp | ⟨hva, hbu⟩
    · exact hA u v huv' hp
    · exact hnab ((hbu.tail huv').trans hva)
  · rcases reaches_snoc_decompose hnab hvu with hp | ⟨hba, -⟩
    · exact hnab hp
    · exact hnab hba

/-! ### Structural lemmas about addEdge -/

theorem addEdge_res_none_or_db_eq (db : DB) (fail : StoreOp → Bool) (src dst : String) :
    ((addEdge db fail src dst).res = none ∧
        (addEdge db fail src dst).db = ⟨db.vertices, db.edges ++ [(src, dst)]⟩) ∨
      ((addEdge db fail src dst).res ≠ none ∧ (addEdge db fail src dst).db = db) := by
  unfold addEdge
  repeat' split
  all_goals simp

theorem addEdge_err_db_eq {db : DB} {fail : StoreOp → Bool} {src dst : String} {e : Err}
    (h : (addEdge db fail src dst).res = some e) : (addEdge db fail src dst).db = db := by
  rcases addEdge_res_none_or_db_eq db fail src dst with ⟨h1, -⟩ | ⟨-, h2⟩
  · rw [h1] at h; exact absurd h (by simp)
  · exact h2

theorem addEdge_vertices_eq (db : DB) (fail : StoreOp → Bool) (src dst : String) :
    (addEdge db fail src dst).db.vertices = db.vertices := by
  rcases addEdge_res_none_or_db_eq db fail src dst with ⟨-, h1⟩ | ⟨-, h2⟩
  · rw [h1]
  · rw [h2]

theorem addEdge_success_iff (db : DB) (src dst : String) :
    (addEdge db noFail src dst).res = none ↔
      src ∈ db.vertices ∧ dst ∈ db.vertices ∧ (src, dst) ∉ db.edges ∧
        shortestPath db.edges dst src = none := by
  unfold addEdge noFail
  simp only [Bool.false_eq_true, if_false]
  split
  · rename_i hsrc
    simp [hsrc]
  · split
    · rename_i hdst
      simp [hdst]
    · split
      · rename_i hdup
        simp_all
      · split
        · rename_i p hp
          simp_all
          split
          all_goals simp
        · rename_i hp
          simp_all

theorem addEdge_success_db {db : DB} {fail : StoreOp → Bool} {src dst : String}
    (h : (addEdge db fail src dst).res = none) :
    (addEdge db fail src dst).db = ⟨db.vertices, db.edges ++ [(src, dst)]⟩ := by
  rcases addEdge_res_none_or_db_eq db fail src dst with ⟨-, h1⟩ | ⟨h2, -⟩
  · exact h1
  · exact absurd h h2

theorem addEdge_res_eq (db : DB) (src dst : String) (hs : src ∈ db.vertices)
    (hd : dst ∈ db.vertices) (hdup : (src, dst) ∉ db.edges) :
    (addEdge db noFail src dst).res =
      match shortestPath db.edges dst src with
      | some p => if p.length = 1 then some .selfLoop else some .cycle
      | none => none := by
  unfold addEdge noFail
  simp only [Bool.false_eq_true, if_false, hs, hd, hdup, not_true, not_false_iff,
    if_neg (show ¬ src ∉ db.vertices from fun hc => hc hs),
    if_neg (show ¬ dst ∉ db.vertices from fun hc => hc hd), if_neg hdup]
  split
  · split
    all_goals simp
  · simp

theorem addEdge_self_eq (db : DB) (x : String) (hx : x ∈ db.vertices)
    (hxx : (x, x) ∉ db.edges) :
    addEdge db noFail x x =
      ⟨some .selfLoop, db,
        [.readVertex x, .readVertex x, .queryEdge x x, .queryPath x x]⟩ := by
  unfold addEdge noFail
  simp only [Bool.false_eq_true, if_false,
    if_neg (show ¬ x ∉ db.vertices from fun hc => hc hx), if_neg hxx,
    shortestPath_self]
  simp

theorem acyclic_step {db : DB} {src dst : String} (hA : Acyclic db.edges) :
    Acyclic ((addEdge db noFail src dst).db).edges := by
  rcases addEdge_res_none_or_db_eq db noFail src dst with ⟨hres, hdb⟩ | ⟨-, hdb⟩
  · rw [hdb]
    obtain ⟨-, -, -, hsp⟩ := (addEdge_success_iff db src dst).mp hres
    exact acyclic_snoc hA (shortestPath_eq_none_iff.mp hsp)
  · rw [hdb]
    exact hA

theorem runAddEdges_acyclic_aux (calls : List (String × String)) :
    ∀ db : DB, Acyclic db.edges → Acyclic (runAddEdges db calls).edges := by
  induction calls with
  | nil => intro db h; exact h
  | cons c rest ih =>
    intro db h
    exact ih _ (acyclic_step h)

theorem runAddEdges_vertices (calls : List (String × String)) :
    ∀ db : DB, (runAddEdges db calls).vertices = db.vertices := by
  induction calls with
  | nil => intro db; rfl
  | cons c rest ih =>
    intro db
    have h : runAddEdges db (c :: rest) = runAddEdges (addEdge db noFail c.1 c.2).db rest := rfl
    rw [h, ih, addEdge_vertices_eq]

theorem nodup_step {db : DB} {src dst : String} (hnd : db.edges.Nodup) :
    ((addEdge db noFail src dst).db).edges.Nodup := by
  rcases addEdge_res_none_or_db_eq db noFail src dst with ⟨hres, hdb⟩ | ⟨-, hdb⟩
  · rw [hdb]
    obtain ⟨-, -, hdup, -⟩ := (addEdge_success_iff db src dst).mp hres
    simp [List.nodup_append, hnd, hdup]
  · rw [hdb]
    exact hnd

theorem runAddEdges_nodup (calls : List (String × String)) :
    ∀ db : DB, db.edges.Nodup → (runAddEdges db calls).edges.Nodup := by
  induction calls with
  | nil => intro db h; exact h
  | cons c rest ih =>
    intro db h
    exact ih _ (nodup_step h)

/-! ### A long-chain store exercising the 10000-hop traversal ceiling -/

/-- Distinct vertex keys: `k i` is the letter a repeated `i` times. -/
def k (i : Nat) : String := String.mk (List.replicate i 'a')

theorem k_injective : Function.Injective k := by
  intro i j h
  have hd : List.replicate i 'a' = List.replicate j 'a' := congrArg String.data h
  have hl := congrArg List.length hd
  simpa using hl

/-- A chain `k n → k (n-1) → … → k 1 → k 0`: the ancestors of `k 0` lie at
depths `1` to `n`. -/
def chainEdges (n : Nat) : List (String × String) :=
  (List.range n).map fun i => (k (i + 1), k i)

/-- Store holding the chain of `n` edges and its `n + 1` vertices. -/
def chainDB (n : Nat) : DB :=
  ⟨(List.range (n + 1)).map k, chainEdges n⟩

theorem range_filter_eq (i : Nat) :
    ∀ n : Nat, (List.range n).filter (fun j => j = i) = if i < n then [i] else [] := by
  intro n
  induction n with
  | zero => simp
  | succ n ih =>
    rw [List.range_succ, List.filter_append, ih]
    by_cases h : i < n
    · have h2 : ¬ (n = i) := by omega
      have h3 : i < n + 1 := by omega
      simp [h, h2, h3]
    · by_cases h2 : n = i
      · subst h2
        simp [h]
      · have h3 : ¬ i < n + 1 := by omega
        simp [h, h2, h3]

theorem parents_chain (n i : Nat) :
    parents (chainEdges n) (k i) = if i < n then [k (i + 1)] else [] := by
  unfold parents chainEdges
  rw [List.filter_map]
  have hcong :
      (List.range n).filter ((fun e : String × String => decide (e.2 = k i)) ∘
        fun j => (k (j + 1), k j)) = (List.range n).filter (fun j => j = i) := by
    refine List.filter_congr fun j _ => ?_
    simp only [Function.comp]
    by_cases hji : j = i
    · subst hji; simp
    · have : k j ≠ k i := fun hk => hji (k_injective hk)
      simp [this, hji]
  rw [hcong, range_filter_eq]
  by_cases h : i < n
  · simp [h]
  · simp [h]

theorem dfsVisits_chain (n : Nat) :
    ∀ (fuel i : Nat), dfsVisits (chainEdges n) fuel (k i) =
      (List.range (min fuel (n - i))).map fun j => k (i + 1 + j) := by
  intro fuel
  induction fuel with
  | zero => intro i; simp [dfsVisits]
  | succ fuel ih =>
    intro i
    rw [dfsVisits, parents_chain]
    by_cases h : i < n
    · rw [if_pos h]
      simp only [List.flatMap_cons, List.flatMap_nil, List.append_nil]
      rw [ih (i + 1)]
      have hmin : min (fuel + 1) (n - i) = min fuel (n - i - 1) + 1 := by omega
      rw [hmin, List.range_succ_eq_map]
      simp only [List.map_cons, List.map_map]
      have harith : ∀ j : Nat, i + 1 + 1 + j = i + 1 + (j + 1) := by omega
      have hni : n - (i + 1) = n - i - 1 := by omega
      rw [hni]
      refine congrArg₂ List.cons rfl ?_
      refine List.map_congr_left fun j _ => ?_
      simp only [Function.comp]
      exact congrArg k (by omega)
    · rw [if_neg h]
      have h0 : n - i = 0 := by omega
      simp [h0, dfsVisits]

theorem chain_reaches (n : Nat) : ∀ i : Nat, i ≤ n → Reaches (chainEdges n) (k i) (k 0) := by
  intro i
  induction i with
  | zero => intro _; exact .refl
  | succ i ih =>
    intro h
    refine Relation.ReflTransGen.head ?_ (ih (by omega))
    show (k (i + 1), k i) ∈ chainEdges n
    exact List.mem_map.mpr ⟨i, List.mem_range.mpr (by omega), rfl⟩

theorem chain_walk_spec (n : Nat) (hn : 10000 < n) :
    walkAncestors (chainDB n) (k 0) true =
      .ok ((List.range 10000).map fun j => k (j + 1)) ∧
    k n ∉ ((List.range 10000).map fun j => k (j + 1)) ∧
    Reaches (chainDB n).edges (k n) (k 0) := by
  have hout : (List.range 10000).map (fun j => k (j + 1)) =
      (List.range (min 10000 (n - 0))).map fun j => k (0 + 1 + j) := by
    have hm : min 10000 (n - 0) = 10000 := by omega
    rw [hm]
    exact List.map_congr_left fun j _ => congrArg k (by omega)
  have hnodup : ((List.range 10000).map fun j => k (j + 1)).Nodup := by
    refine List.Nodup.map ?_ (List.nodup_range 10000)
    intro a b hab
    have := k_injective hab
    omega
  refine ⟨?_, ?_, ?_⟩
  · have hmem : k 0 ∈ (chainDB n).vertices :=
      List.mem_map.mpr ⟨0, List.mem_range.mpr (by omega), rfl⟩
    have hkeys : walkAncestorsKeys (chainDB n).edges (k 0) true =
        (List.range 10000).map fun j => k (j + 1) := by
      have h1 : walkAncestorsKeys (chainDB n).edges (k 0) true =
          (dfsVisits (chainEdges n) 10000 (k 0)).dedup := rfl
      rw [h1, dfsVisits_chain n 10000 0, ← hout]
      exact List.dedup_eq_self.mpr hnodup
    rw [walkAncestors, if_pos hmem, hkeys]
  · intro hmem
    obtain ⟨j, hj, hk⟩ := List.mem_map.mp hmem
    have := k_injective hk
    have := List.mem_range.mp hj
    omega
  · exact chain_reaches n n (le_refl n)

/-! ### Remaining small helpers -/

theorem acyclic_nil : Acyclic ([] : List (String × String)) := by
  intro u v h
  exact absurd h (List.not_mem_nil _)

theorem reaches_nil_eq {u v : String} (h : Reaches [] u v) : u = v := by
  induction h with
  | refl => rfl
  | tail _ h₂ _ => exact absurd h₂ (List.not_mem_nil _)

theorem walkerLoop_append (xs ys : List (Except Err String)) :
    walkerLoop (xs ++ ys) =
      ((walkerLoop xs).1 ++ (walkerLoop ys).1, (walkerLoop xs).2 ++ (walkerLoop ys).2) := by
  induction xs with
  | nil => simp [walkerLoop]
  | cons x rest ih =>
    cases x with
    | error e => simp [walkerLoop, ih]
    | ok s => simp [walkerLoop, ih]

/-- The diamond store of the spec's examples: `A→B→D`, `A→C→D`. -/
def diamondDB : DB :=
  ⟨["A", "B", "C", "D"], [("A", "B"), ("B", "D"), ("A", "C"), ("C", "D")]⟩

/-! ### Claims -/

/-- Claim C1: starting from an acyclic edge set, any sequence of `AddEdge`
calls leaves the edge set acyclic — a call that succeeds preserves acyclicity
and a call that fails changes nothing, so no directed cycle of length ≥ 1
ever appears among the stored edges. -/
theorem runAddEdges_preserves_acyclic (db : DB) (calls : List (String × String))
    (h : Acyclic db.edges) : Acyclic (runAddEdges db calls).edges :=
  runAddEdges_acyclic_aux calls db h

theorem runAddEdges_preserves_acyclic_witness :
    Acyclic (DB.mk ["A", "B", "C"] []).edges ∧
      Acyclic (runAddEdges ⟨["A", "B", "C"], []⟩
        [("A", "B"), ("B", "C"), ("C", "A"), ("A", "C")]).edges :=
  ⟨acyclic_nil, runAddEdges_preserves_acyclic ⟨["A", "B", "C"], []⟩
    [("A", "B"), ("B", "C"), ("C", "A"), ("A", "C")] acyclic_nil⟩

/-- Claim C2: for existing, distinct vertices with no stored `(src, dst)`
edge, `AddEdge(src, dst)` fails with the cycle error ("loop") exactly when a
directed path from `dst` back to `src` exists, and in that case the store is
unchanged. -/
theorem addEdge_cycle_iff (db : DB) (src dst : String)
    (hs : src ∈ db.vertices) (hd : dst ∈ db.vertices) (hne : src ≠ dst)
    (hdup : (src, dst) ∉ db.edges) :
    ((addEdge db noFail src dst).res = some .cycle ↔ Reaches db.edges dst src) ∧
      ((addEdge db noFail src dst).res = some .cycle →
        (addEdge db noFail src dst).db = db) := by
  have hres := addEdge_res_eq db src dst hs hd hdup
  refine ⟨?_, fun h => addEdge_err_db_eq h⟩
  cases hp : shortestPath db.edges dst src with
  | none =>
    rw [hres, hp]
    exact iff_of_false (by simp) (shortestPath_eq_none_iff.mp hp)
  | some p =>
    obtain ⟨hhead, hlast, -, -⟩ := shortestPath_spec hp
    have hlen : p.length ≠ 1 := by
      intro h1
      obtain ⟨x, rfl⟩ := List.length_eq_one.mp h1
      simp only [List.head?_cons, Option.some.injEq] at hhead
      simp only [List.getLast?_singleton, Option.some.injEq] at hlast
      exact hne (by rw [← hlast, ← hhead])
    have hr : Reaches db.edges dst src := by
      by_contra h
      rw [shortestPath_eq_none_iff.mpr h] at hp
      exact absurd hp (by simp)
    rw [hres, hp]
    refine iff_of_true ?_ hr
    show (if p.length = 1 then some Err.selfLoop else some Err.cycle) = some Err.cycle
    rw [if_neg hlen]

theorem addEdge_cycle_iff_witness :
    ("C" ∈ diamondDB.vertices ∧ "A" ∈ diamondDB.vertices ∧ "C" ≠ "A" ∧
        ("C", "A") ∉ diamondDB.edges) ∧
      (((addEdge diamondDB noFail "C" "A").res = some .cycle ↔
          Reaches diamondDB.edges "A" "C") ∧
        ((addEdge diamondDB noFail "C" "A").res = some .cycle →
          (addEdge diamondDB noFail "C" "A").db = diamondDB)) :=
  ⟨⟨by decide, by decide, by decide, by decide⟩,
    addEdge_cycle_iff diamondDB "C" "A" (by decide) (by decide) (by decide) (by decide)⟩

/-- Claim C3: for existing vertices, `GetShortestPath(src, dst)` succeeds and
returns a vertex sequence that starts at `src`, ends at `dst`, follows stored
edges forward and has minimal hop count among all such sequences; it returns
the "no path" result (`none`, Go `nil`) exactly when `dst` is unreachable
from `src`. -/
theorem getShortestPath_correct (db : DB) (src dst : String)
    (hs : src ∈ db.vertices) (hd : dst ∈ db.vertices) :
    ∃ r, getShortestPath db src dst = .ok r ∧
      (∀ p, r = some p → p.head? = some src ∧ p.getLast? = some dst ∧
        p.Chain' (fun a b => (a, b) ∈ db.edges) ∧
        ∀ q : List String, q.head? = some src → q.getLast? = some dst →
          q.Chain' (fun a b => (a, b) ∈ db.edges) → p.length ≤ q.length) ∧
      (r = none ↔ ¬ Reaches db.edges src dst) := by
  refine ⟨shortestPath db.edges src dst, ?_, ?_, shortestPath_eq_none_iff⟩
  · rw [getShortestPath, if_neg (show ¬ src ∉ db.vertices from fun hc => hc hs),
      if_neg (show ¬ dst ∉ db.vertices from fun hc => hc hd)]
  · intro p hp
    exact shortestPath_spec hp

theorem getShortestPath_correct_witness :
    ("A" ∈ diamondDB.vertices ∧ "D" ∈ diamondDB.vertices) ∧
      (∃ r, getShortestPath diamondDB "A" "D" = .ok r ∧
        (∀ p, r = some p → p.head? = some "A" ∧ p.getLast? = some "D" ∧
          p.Chain' (fun a b => (a, b) ∈ diamondDB.edges) ∧
          ∀ q : List String, q.head? = some "A" → q.getLast? = some "D" →
            q.Chain' (fun a b => (a, b) ∈ diamondDB.edges) → p.length ≤ q.length) ∧
        (r = none ↔ ¬ Reaches diamondDB.edges "A" "D")) :=
  ⟨⟨by decide, by decide⟩,
    getShortestPath_correct diamondDB "A" "D" (by decide) (by decide)⟩

/-- Claim C4 (amended): a `WalkAncestors` walk whose ancestors lie deeper
than the 10000-hop ceiling does not fail — there is no depth error in the
code; the traversal query bounds the depth at 10000 hops and the vertices
beyond the ceiling are silently missing from the visited sequence. Shown on
the chain `k n → … → k 0` for any `n > 10000`: the walk from `k 0` succeeds,
visits exactly the 10000 nearest ancestors, and omits the ancestor `k n`. -/
theorem walkAncestors_depth_truncates (n : Nat) (hn : 10000 < n) :
    walkAncestors (chainDB n) (k 0) true =
        .ok ((List.range 10000).map fun j => k (j + 1)) ∧
      k n ∉ ((List.range 10000).map fun j => k (j + 1)) ∧
      Reaches (chainDB n).edges (k n) (k 0) :=
  chain_walk_spec n hn

theorem walkAncestors_depth_counterexample :
    walkAncestors (chainDB 10001) (k 0) true =
        .ok ((List.range 10000).map fun j => k (j + 1)) ∧
      k 10001 ∉ ((List.range 10000).map fun j => k (j + 1)) ∧
      Reaches (chainDB 10001).edges (k 10001) (k 0) :=
  chain_walk_spec 10001 (by omega)

theorem walkAncestors_depth_truncates_witness :
    10000 < 10002 ∧
      (walkAncestors (chainDB 10002) (k 0) true =
          .ok ((List.range 10000).map fun j => k (j + 1)) ∧
        k 10002 ∉ ((List.range 10000).map fun j => k (j + 1)) ∧
        Reaches (chainDB 10002).edges (k 10002) (k 0)) :=
  ⟨by omega, walkAncestors_depth_truncates 10002 (by omega)⟩

/-- Claim C5 (amended): although the depth-first traversal itself runs with
`uniqueVertices: none` and reaches a vertex once per inbound path, the
query's `RETURN DISTINCT` deduplicates the result, so the visit function is
applied at most once per distinct vertex — for every store, start vertex and
traversal order. -/
theorem walkAncestors_visits_at_most_once (edges : List (String × String))
    (key s : String) (dfs : Bool) : (walkAncestorsKeys edges key dfs).count s ≤ 1 :=
  List.nodup_iff_count_le_one.mp (List.nodup_dedup _) s

theorem walkAncestors_dfs_dedup_counterexample :
    (dfsVisits diamondDB.edges 10000 "D").count "A" = 2 ∧
      walkAncestors diamondDB "D" true = .ok ["B", "C", "A"] ∧
      (walkAncestorsKeys diamondDB.edges "D" true).count "A" = 1 :=
  ⟨by decide, rfl, by decide⟩

/-- Claim C6: edge duplicates never arise — starting from a duplicate-free
edge set, any sequence of `AddEdge` calls keeps the stored edge list free of
repeated `(from, to)` pairs, and once an edge `(src, dst)` is stored, a
further `AddEdge(src, dst)` fails with the duplicate-edge error and changes
nothing. -/
theorem addEdge_no_duplicates (db : DB) (calls : List (String × String))
    (src dst : String) (hnd : db.edges.Nodup)
    (hs : src ∈ db.vertices) (hd : dst ∈ db.vertices) :
    (runAddEdges db calls).edges.Nodup ∧
      ((src, dst) ∈ (runAddEdges db calls).edges →
        (addEdge (runAddEdges db calls) noFail src dst).res = some .duplicateEdge ∧
          (addEdge (runAddEdges db calls) noFail src dst).db = runAddEdges db calls) := by
  refine ⟨runAddEdges_nodup calls db hnd, fun hmem => ?_⟩
  have hs' : src ∈ (runAddEdges db calls).vertices := by
    rw [runAddEdges_vertices]; exact hs
  have hd' : dst ∈ (runAddEdges db calls).vertices := by
    rw [runAddEdges_vertices]; exact hd
  have hres : (addEdge (runAddEdges db calls) noFail src dst).res = some .duplicateEdge := by
    unfold addEdge noFail
    simp only [Bool.false_eq_true, if_false,
      if_neg (show ¬ src ∉ (runAddEdges db calls).vertices from fun hc => hc hs'),
      if_neg (show ¬ dst ∉ (runAddEdges db calls).vertices from fun hc => hc hd'),
      if_pos hmem]
  exact ⟨hres, addEdge_err_db_eq hres⟩

theorem addEdge_no_duplicates_witness :
    ((DB.mk ["A", "B"] []).edges.Nodup ∧ "A" ∈ (DB.mk ["A", "B"] []).vertices ∧
        "B" ∈ (DB.mk ["A", "B"] []).vertices) ∧
      ((runAddEdges ⟨["A", "B"], []⟩ [("A", "B")]).edges.Nodup ∧
        (("A", "B") ∈ (runAddEdges ⟨["A", "B"], []⟩ [("A", "B")]).edges →
          (addEdge (runAddEdges ⟨["A", "B"], []⟩ [("A", "B")]) noFail "A" "B").res =
              some .duplicateEdge ∧
            (addEdge (runAddEdges ⟨["A", "B"], []⟩ [("A", "B")]) noFail "A" "B").db =
              runAddEdges ⟨["A", "B"], []⟩ [("A", "B")])) :=
  ⟨⟨by decide, by decide, by decide⟩,
    addEdge_no_duplicates ⟨["A", "B"], []⟩ [("A", "B")] "A" "B"
      (by decide) (by decide) (by decide)⟩

/-- Claim C7 (amended): for an existing vertex `x` with no stored `(x, x)`
edge, `AddEdge(x, x)` fails with the self-loop error and inserts nothing,
but the self-loop is detected from the one-vertex result of the
shortest-path (reachability) query, which does run — it is not rejected
before the search; a non-existing `x` fails with not-found instead. -/
theorem addEdge_self_loop_after_search (db : DB) (x : String)
    (hx : x ∈ db.vertices) (hxx : (x, x) ∉ db.edges) :
    (addEdge db noFail x x).res = some .selfLoop ∧
      (addEdge db noFail x x).db = db ∧
      StoreOp.queryPath x x ∈ (addEdge db noFail x x).trace := by
  rw [addEdge_self_eq db x hx hxx]
  exact ⟨rfl, rfl, by simp⟩

theorem addEdge_self_loop_counterexample :
    (addEdge ⟨[], []⟩ noFail "a" "a").res = some (.notFound "a") ∧
      (addEdge ⟨["a"], []⟩ noFail "a" "a").res = some .selfLoop ∧
      StoreOp.queryPath "a" "a" ∈ (addEdge ⟨["a"], []⟩ noFail "a" "a").trace := by
  decide

theorem addEdge_self_loop_after_search_witness :
    ("b" ∈ (DB.mk ["b"] []).vertices ∧ ("b", "b") ∉ (DB.mk ["b"] []).edges) ∧
      ((addEdge ⟨["b"], []⟩ noFail "b" "b").res = some .selfLoop ∧
        (addEdge ⟨["b"], []⟩ noFail "b" "b").db = ⟨["b"], []⟩ ∧
        StoreOp.queryPath "b" "b" ∈ (addEdge ⟨["b"], []⟩ noFail "b" "b").trace) :=
  ⟨⟨by decide, by decide⟩,
    addEdge_self_loop_after_search ⟨["b"], []⟩ "b" (by decide) (by decide)⟩

/-- Claim C8: in `GetRootsWalker`, a failure to start the query is fatal —
the error is the only thing delivered and no identifier is produced before
both channels close — while a read failure on a single item mid-enumeration
is delivered on the error channel and enumeration continues: the identifiers
produced are exactly those of the items before and after the failing one. -/
theorem getRootsWalker_error_policy (e : Err) (pre post : List (Except Err String)) :
    getRootsWalker (.error e) = ([], [e]) ∧
      (getRootsWalker (.ok (pre ++ .error e :: post))).1 =
        (getRootsWalker (.ok pre)).1 ++ (getRootsWalker (.ok post)).1 ∧
      (getRootsWalker (.ok (pre ++ .error e :: post))).2 =
        (getRootsWalker (.ok pre)).2 ++ e :: (getRootsWalker (.ok post)).2 := by
  have h : getRootsWalker (.ok (pre ++ .error e :: post)) =
      walkerLoop (pre ++ .error e :: post) := rfl
  refine ⟨rfl, ?_, ?_⟩
  · rw [h, walkerLoop_append]
    simp [walkerLoop, getRootsWalker]
  · rw [h, walkerLoop_append]
    simp [walkerLoop, getRootsWalker]

/-- Claim C9 (amended): nothing serializes two `AddEdge` calls — each issues
its duplicate check, cycle check and insert as separate store queries with no
lock or transaction — so two concurrent calls over crossing vertex pairs can
both pass every check against the same pre-insertion snapshot, and applying
both insertions produces a cyclic edge set that neither call would create
alone. -/
theorem addEdge_unserialized_joint_cycle (db : DB) (a b : String)
    (ha : a ∈ db.vertices) (hb : b ∈ db.vertices)
    (hrba : ¬ Reaches db.edges b a) (hrab : ¬ Reaches db.edges a b) :
    (addEdge db noFail a b).res = none ∧ (addEdge db noFail b a).res = none ∧
      ¬ Acyclic (db.edges ++ [(a, b), (b, a)]) := by
  have hab : (a, b) ∉ db.edges := fun hc => hrab (Relation.ReflTransGen.single hc)
  have hba : (b, a) ∉ db.edges := fun hc => hrba (Relation.ReflTransGen.single hc)
  refine ⟨?_, ?_, fun hA => ?_⟩
  · exact (addEdge_success_iff db a b).mpr
      ⟨ha, hb, hab, shortestPath_eq_none_iff.mpr hrba⟩
  · exact (addEdge_success_iff db b a).mpr
      ⟨hb, ha, hba, shortestPath_eq_none_iff.mpr hrab⟩
  · exact hA a b (by simp) (Relation.ReflTransGen.single (by simp [EdgeRel]))

theorem addEdge_concurrent_cycle_counterexample :
    (addEdge ⟨["a", "b"], []⟩ noFail "a" "b").res = none ∧
      (addEdge ⟨["a", "b"], []⟩ noFail "b" "a").res = none ∧
      ¬ Acyclic [("a", "b"), ("b", "a")] := by
  refine ⟨by decide, by decide, fun hA => ?_⟩
  exact hA "a" "b" (by simp) (Relation.ReflTransGen.single (by simp [EdgeRel]))

theorem addEdge_unserialized_joint_cycle_witness :
    ("a" ∈ (DB.mk ["a", "b"] []).vertices ∧ "b" ∈ (DB.mk ["a", "b"] []).vertices ∧
        ¬ Reaches (DB.mk ["a", "b"] []).edges "b" "a" ∧
        ¬ Reaches (DB.mk ["a", "b"] []).edges "a" "b") ∧
      ((addEdge ⟨["a", "b"], []⟩ noFail "a" "b").res = none ∧
        (addEdge ⟨["a", "b"], []⟩ noFail "b" "a").res = none ∧
        ¬ Acyclic ((DB.mk ["a", "b"] []).edges ++ [("a", "b"), ("b", "a")])) :=
  ⟨⟨by decide, by decide,
      fun h => absurd (reaches_nil_eq h) (by decide),
      fun h => absurd (reaches_nil_eq h) (by decide)⟩,
    addEdge_unserialized_joint_cycle ⟨["a", "b"], []⟩ "a" "b" (by decide) (by decide)
      (fun h => absurd (reaches_nil_eq h) (by decide))
      (fun h => absurd (reaches_nil_eq h) (by decide))⟩

/-- Claim C10: every `AddEdge` call that returns an error — missing vertex,
duplicate edge, self loop, cycle, or an injected store failure at any of its
store operations — leaves the stored state unchanged: the edge document is
only created after every check has passed. -/
theorem addEdge_error_atomic (db : DB) (fail : StoreOp → Bool) (src dst : String)
    (e : Err) (h : (addEdge db fail src dst).res = some e) :
    (addEdge db fail src dst).db = db :=
  addEdge_err_db_eq h

theorem addEdge_error_atomic_witness :
    (addEdge ⟨["a", "b"], []⟩ (fun op => decide (op = .queryPath "b" "a")) "a" "b").res =
        some .storeFailure ∧
      (addEdge ⟨["a", "b"], []⟩ (fun op => decide (op = .queryPath "b" "a")) "a" "b").db =
        ⟨["a", "b"], []⟩ :=
  ⟨by decide,
    addEdge_error_atomic ⟨["a", "b"], []⟩ (fun op => decide (op = .queryPath "b" "a"))
      "a" "b" .storeFailure (by decide)⟩
